import Mathlib

/-
Verification of the hierarchical path-set algebra of the usb-boot repository
(crate fullsystemimage, file src/query_filenames/filename_set.rs).

Strings are embedded as lists of characters.  The Rust HashMap that backs a
Branch node is embedded as an association list kept strictly sorted by key,
a canonical representation of the unordered map.  The filesystem metadata
query performed by FileTree::from_filenames (fs::symlink_metadata followed
by Metadata::is_dir) is embedded as an injected classification oracle
mapping a rendered path to an optional leaf kind, where none models a
failing metadata query; the oracle is a pure function, which models the
point-in-time filesystem snapshot seen by one construction run.

Functions that are implemented in the source are translated from it.
Functions whose bodies are left as todo in the source are modelled from the
specification and are marked as such in their doc comments.
-/

namespace UsbBoot

/-- A path component or a rendered path: the embedding of a Rust string. -/
abbrev Key := List Char

/-- Embedding of LeafKind from filename_set.rs. -/
inductive LeafKind where
  | file
  | directory
deriving DecidableEq

mutual

/-- Embedding of Node from filename_set.rs: a branch (Stem, a map from
component to child) or a leaf marked as file or directory. -/
inductive Node where
  | stem (children : Stem)
  | leaf (k : LeafKind)

/-- Embedding of the HashMap backing a Stem, as an association list sorted
strictly by key. -/
inductive Stem where
  | nil
  | cons (key : Key) (node : Node) (rest : Stem)

end

/-- Embedding of FileTree from filename_set.rs. -/
structure FileTree where
  root : Node

/-- Lookup of a key in a stem, the embedding of HashMap lookup. -/
def lookupStem : Stem → Key → Option Node
  | .nil, _ => none
  | .cons k n rest, key => if key = k then some n else lookupStem rest key

/-- Insertion into a stem, the embedding of HashMap::insert: replaces the
node stored at an existing key, otherwise adds the binding, keeping the
canonical sorted order. -/
def insertStem : Stem → Key → Node → Stem
  | .nil, key, node => .cons key node .nil
  | .cons k n rest, key, node =>
    if key = k then .cons key node rest
    else if key < k then .cons key node (.cons k n rest)
    else .cons k n (insertStem rest key node)

/-- Removal of a key from a stem, the embedding of HashMap removal. -/
def removeKey : Stem → Key → Stem
  | .nil, _ => .nil
  | .cons k n rest, key => if key = k then rest else .cons k n (removeKey rest key)

/-- Embedding of the Filename::from_str splitting step: Rust
str::split('/') on the text after the leading separator, producing the raw
segments, empty segments included. -/
def splitSlash : List Char → List Key
  | [] => [[]]
  | c :: rest =>
    if c = '/' then [] :: splitSlash rest
    else
      match splitSlash rest with
      | [] => [[c]]
      | s :: ss => (c :: s) :: ss

/-- Embedding of Filename::from_str: requires a leading separator, then
splits the remainder on the separator and keeps the nonempty segments as
the component list.  Returns none where the Rust function returns Err. -/
def filenameFromStr (path : List Char) : Option (List Key) :=
  match path with
  | [] => none
  | c :: rest =>
    if c = '/' then some ((splitSlash rest).filter (fun s => s.length > 0)) else none

/-- Embedding of Filename::to_string: pushes a separator and then the
component, for each component in order, onto an accumulator starting from
the empty string. -/
def filenameToString (components : List Key) : List Char :=
  components.foldl (fun acc c => acc ++ '/' :: c) []

/-- Recursive normal form of filenameToString, used in proofs. -/
def renderComps : List Key → List Char
  | [] => []
  | c :: cs => '/' :: c ++ renderComps cs

/-- Embedding of the per-filename insertion loop of FileTree::from_filenames,
for a filename whose components are c :: cs, walking a stem with dir the
rendered path of the stem position.  The first result is the updated stem,
none where the Rust loop makes from_filenames return Err; the second result
is the list of metadata queries issued, in order.  At the last component
the code queries the oracle and unconditionally inserts a leaf of the
classified kind; at an earlier component it descends, creating an empty
stem when the component is vacant, stopping silently at a directory leaf
and failing at a file leaf. -/
def insertComps (classify : Key → Option LeafKind) (dir : List Char) (stem : Stem)
    (c : Key) : List Key → Option Stem × List (List Char)
  | [] =>
    match classify (dir ++ '/' :: c) with
    | none => (none, [dir ++ '/' :: c])
    | some k => (some (insertStem stem c (.leaf k)), [dir ++ '/' :: c])
  | c' :: rest =>
    match lookupStem stem c with
    | none =>
      match insertComps classify (dir ++ '/' :: c) .nil c' rest with
      | (none, qs) => (none, qs)
      | (some s2, qs) => (some (insertStem stem c (.stem s2)), qs)
    | some (.stem s) =>
      match insertComps classify (dir ++ '/' :: c) s c' rest with
      | (none, qs) => (none, qs)
      | (some s2, qs) => (some (insertStem stem c (.stem s2)), qs)
    | some (.leaf .directory) => (some stem, [])
    | some (.leaf .file) => (none, [])

/-- Embedding of the outer loop of FileTree::from_filenames over the list of
filenames, each given by its component list, threading the root stem.  A
filename with no components makes the whole tree a single directory leaf at
once, the remaining filenames being skipped by the early return. -/
def fromFilenamesAux (classify : Key → Option LeafKind) :
    Stem → List (List Key) → Option FileTree
  | stem, [] => some ⟨.stem stem⟩
  | stem, comps :: rest =>
    match comps with
    | [] => some ⟨.leaf .directory⟩
    | c :: cs =>
      match (insertComps classify [] stem c cs).1 with
      | none => none
      | some s => fromFilenamesAux classify s rest

/-- Embedding of FileTree::from_filenames, starting from an empty root map. -/
def fromFilenames (classify : Key → Option LeafKind)
    (filenames : List (List Key)) : Option FileTree :=
  fromFilenamesAux classify .nil filenames

/-- The last-component step as the specification words it: the metadata
query happens first; a directory leaf already stored at the position makes
the insertion a no-op, a file leaf requires the freshly classified kind to
be file and is otherwise a path conflict, and only otherwise is a fresh
leaf of the classified kind inserted.  The earlier components are handled
exactly as in the code.  This definition exists to be compared with
insertComps. -/
def insertCompsSpec (classify : Key → Option LeafKind) (dir : List Char) (stem : Stem)
    (c : Key) : List Key → Option Stem
  | [] =>
    match classify (dir ++ '/' :: c) with
    | none => none
    | some k =>
      match lookupStem stem c with
      | some (.leaf .directory) => some stem
      | some (.leaf .file) => if k = .file then some stem else none
      | _ => some (insertStem stem c (.leaf k))
  | c' :: rest =>
    match lookupStem stem c with
    | none =>
      match insertCompsSpec classify (dir ++ '/' :: c) .nil c' rest with
      | none => none
      | some s2 => some (insertStem stem c (.stem s2))
    | some (.stem s) =>
      match insertCompsSpec classify (dir ++ '/' :: c) s c' rest with
      | none => none
      | some s2 => some (insertStem stem c (.stem s2))
    | some (.leaf .directory) => some stem
    | some (.leaf .file) => none

/-- Outer construction loop built on the specification-worded step, to be
compared with fromFilenamesAux. -/
def fromFilenamesSpecAux (classify : Key → Option LeafKind) :
    Stem → List (List Key) → Option FileTree
  | stem, [] => some ⟨.stem stem⟩
  | stem, comps :: rest =>
    match comps with
    | [] => some ⟨.leaf .directory⟩
    | c :: cs =>
      match insertCompsSpec classify [] stem c cs with
      | none => none
      | some s => fromFilenamesSpecAux classify s rest

/-- Construction as the specification words it, to be compared with
fromFilenames. -/
def fromFilenamesSpec (classify : Key → Option LeafKind)
    (filenames : List (List Key)) : Option FileTree :=
  fromFilenamesSpecAux classify .nil filenames

/-- Outcome of the partially written FileTree::difference_strict. -/
inductive DraftOutcome where
  | ok (t : FileTree)
  | err
  | unfinished

/-- Embedding of the partially written FileTree::difference_strict as it
stands in the source.  The written match on the two roots returns an empty
tree for any pair of leaves and an error for a branch minuend with a leaf
subtrahend, whatever the leaf kinds; every case with a branch subtrahend
falls into the unfinished remainder of the function, modelled as the
unfinished outcome. -/
def differenceStrictDraft (whole subtrahend : FileTree) : DraftOutcome :=
  match whole.root, subtrahend.root with
  | .leaf _, .leaf _ => .ok ⟨.stem .nil⟩
  | .stem _, .leaf _ => .err
  | _, .stem _ => .unfinished

mutual

/-- Well-formedness of a node: every stem below it is strictly sorted. -/
def nodeWF : Node → Prop
  | .leaf _ => True
  | .stem cs => stemWF cs

/-- Well-formedness of a stem: keys strictly sorted (each key below every
key appearing after it) and all child nodes well formed. -/
def stemWF : Stem → Prop
  | .nil => True
  | .cons k n rest => nodeWF n ∧ stemKeyLt k rest ∧ stemWF rest

/-- The key is strictly below every key of the stem. -/
def stemKeyLt (key : Key) : Stem → Prop
  | .nil => True
  | .cons k _ rest => key < k ∧ stemKeyLt key rest

end

mutual

/-- Every leaf stored below the given rendered position carries exactly the
kind the classification oracle assigns to its own rendered path. -/
def nodeKindsOk (classify : Key → Option LeafKind) : List Char → Node → Prop
  | dir, .leaf k => classify dir = some k
  | dir, .stem cs => stemKindsOk classify dir cs

/-- Stem-level version of nodeKindsOk. -/
def stemKindsOk (classify : Key → Option LeafKind) : List Char → Stem → Prop
  | _, .nil => True
  | dir, .cons k n rest =>
    nodeKindsOk classify (dir ++ '/' :: k) n ∧ stemKindsOk classify dir rest

end

/-- The node stored at a component path below a stem, descending through
branches; the empty path denotes the stem itself. -/
def nodeAtStem : Stem → List Key → Option Node
  | stem, [] => some (.stem stem)
  | stem, [c] => lookupStem stem c
  | stem, c :: c2 :: cs =>
    match lookupStem stem c with
    | some (.stem s) => nodeAtStem s (c2 :: cs)
    | _ => none

mutual

/-- Modelled from the spec: FilenameSet::sum is left unimplemented in the
source, so the union of section 4.3 is modelled from the specification: a
directory leaf absorbs anything, two file leaves merge to a file leaf, a
file leaf against a branch is a path conflict (none), and two branches
merge key-wise. -/
def mergeNode : Node → Node → Option Node
  | .leaf .directory, _ => some (.leaf .directory)
  | _, .leaf .directory => some (.leaf .directory)
  | .leaf .file, .leaf .file => some (.leaf .file)
  | .leaf .file, .stem _ => none
  | .stem _, .leaf .file => none
  | .stem a, .stem b => (mergeStems a b).map .stem
termination_by a b => sizeOf a + sizeOf b

/-- Key-wise merge of two sorted stems: keys in both merge recursively,
keys in only one are copied. -/
def mergeStems : Stem → Stem → Option Stem
  | .nil, ys => some ys
  | xs, .nil => some xs
  | .cons k1 n1 xs, .cons k2 n2 ys =>
    if k1 = k2 then
      (mergeNode n1 n2).bind fun n => (mergeStems xs ys).map fun r => .cons k1 n r
    else if k1 < k2 then
      (mergeStems xs (.cons k2 n2 ys)).map fun r => .cons k1 n1 r
    else
      (mergeStems (.cons k1 n1 xs) ys).map fun r => .cons k2 n2 r
termination_by a b => sizeOf a + sizeOf b

end

/-- Errors of the difference operation, each naming the offending component
path, as modelled from section 4.4 and section 7 of the specification. -/
inductive SubtractError where
  | pathConflict (path : List Key)
  | notPresentInWhole (path : List Key)
  | unrepresentable (path : List Key)
deriving DecidableEq

/-- Subtraction policy of section 4.4. -/
inductive Policy where
  | strict
  | relaxed
deriving DecidableEq

mutual

/-- Modelled from the spec: FileTree::difference_strict is unfinished and
difference_relaxed is unimplemented in the source, so the node-wise
difference of section 4.4 is modelled from the specification, with pre the
component path of the position.  The result is none when the node is fully
removed.  Matching leaf kinds remove the node, differing kinds conflict; a
branch minus a directory leaf is fully removed, a branch minus a file leaf
conflicts; a directory leaf minus a branch is unrepresentable, a file leaf
minus a branch conflicts; branches recurse key-wise. -/
def subtractNode (pol : Policy) (pre : List Key) : Node → Node → Except SubtractError (Option Node)
  | .leaf k1, .leaf k2 =>
    if k1 = k2 then .ok none else .error (.pathConflict pre)
  | .stem _, .leaf .directory => .ok none
  | .stem _, .leaf .file => .error (.pathConflict pre)
  | .leaf .directory, .stem _ => .error (.unrepresentable pre)
  | .leaf .file, .stem _ => .error (.pathConflict pre)
  | .stem cs, .stem rs => (subtractStems pol pre cs rs).map fun cs' => some (.stem cs')

/-- Key-wise difference over the subtrahend's entries: a key absent from
the whole is an error under the strict policy and ignored under the relaxed
policy; a present key recurses, removing or replacing the entry. -/
def subtractStems (pol : Policy) (pre : List Key) : Stem → Stem → Except SubtractError Stem
  | ws, .nil => .ok ws
  | ws, .cons k rn rest =>
    match lookupStem ws k with
    | none =>
      match pol with
      | .strict => .error (.notPresentInWhole (pre ++ [k]))
      | .relaxed => subtractStems pol pre ws rest
    | some wn =>
      match subtractNode pol (pre ++ [k]) wn rn with
      | .error e => .error e
      | .ok none => subtractStems pol pre (removeKey ws k) rest
      | .ok (some wn') => subtractStems pol pre (insertStem ws k wn') rest

end

mutual

/-- Modelled from the spec: FileTree::iterate is unimplemented in the
source, so the depth-first traversal of section 4.5 is modelled from the
specification: one component path per leaf, children visited in the stored
sorted order. -/
def iterateNode : Node → List (List Key)
  | .leaf _ => [[]]
  | .stem cs => iterateStem cs

/-- Stem-level traversal: the paths of each child, its key prepended, in
order. -/
def iterateStem : Stem → List (List Key)
  | .nil => []
  | .cons k n rest => (iterateNode n).map (fun p => k :: p) ++ iterateStem rest

end

mutual

/-- Number of leaves stored in a node. -/
def countTerminalsNode : Node → Nat
  | .leaf _ => 1
  | .stem cs => countTerminalsStem cs

/-- Number of leaves stored below a stem. -/
def countTerminalsStem : Stem → Nat
  | .nil => 0
  | .cons _ n rest => countTerminalsNode n + countTerminalsStem rest

end

/-- The keys of a stem, in stored order. -/
def stemKeys : Stem → List Key
  | .nil => []
  | .cons k _ rest => k :: stemKeys rest

/-- Lexicographic order on component paths, used to state the traversal
order. -/
def pathLt (p q : List Key) : Prop :=
  List.Lex (fun a b : Key => a < b) p q

/-- Embedding of EvaluateOptions from filename_set.rs. -/
structure EvaluateOptions where
  allow_duplicate_addition : Bool
  allow_nonpresent_subtraction : Bool

/-- Embedding of Sign from filename_set.rs. -/
inductive Sign where
  | positive
  | negative
deriving DecidableEq

/-- Errors of expression evaluation, modelled from sections 4.6 and 7 of
the specification. -/
inductive EvalError where
  | duplicateAddition
  | mergeConflict
  | subtractFailed (e : SubtractError)
deriving DecidableEq

/-- Modelled from the spec: the duplicate-addition check of section 4.6,
true when the produced set and the accumulator share a terminal path. -/
def termsOverlap (produced acc : Node) : Bool :=
  (iterateNode produced).any fun p => (iterateNode acc).contains p

/-- Modelled from the spec: FilenameSet::evaluate_expression is
unimplemented in the source, so one evaluation step of section 4.6 is
modelled from the specification.  An Add term first checks terminal
disjointness when allow_duplicate_addition is false, then merges; a
Subtract term subtracts under the policy selected by
allow_nonpresent_subtraction.  A term is the sign paired with the set its
producer capability yields. -/
def evalStep (opts : EvaluateOptions) (acc : Node) : Sign × Node → Except EvalError Node
  | (.positive, t) =>
    if opts.allow_duplicate_addition = false ∧ termsOverlap t acc then
      .error .duplicateAddition
    else
      match mergeNode acc t with
      | none => .error .mergeConflict
      | some m => .ok m
  | (.negative, t) =>
    match subtractNode (if opts.allow_nonpresent_subtraction then .relaxed else .strict) [] acc t with
    | .error e => .error (.subtractFailed e)
    | .ok none => .ok (.stem .nil)
    | .ok (some n) => .ok n

/-- Left-to-right fold of evaluation steps from a given accumulator. -/
def evaluateFrom (opts : EvaluateOptions) : Node → List (Sign × Node) → Except EvalError Node
  | acc, [] => .ok acc
  | acc, t :: rest =>
    match evalStep opts acc t with
    | .error e => .error e
    | .ok acc' => evaluateFrom opts acc' rest

/-- Modelled from the spec: evaluation of a whole expression, folding the
terms left to right starting from the empty set. -/
def evaluateExpr (opts : EvaluateOptions) (terms : List (Sign × Node)) : Except EvalError Node :=
  evaluateFrom opts (.stem .nil) terms

/-- Oracle of the absorption example: the path with component a is a
directory, the path with components a then b is a file, everything else
fails. -/
def classifyAB : Key → Option LeafKind := fun q =>
  if q = ['/', 'a'] then some .directory
  else if q = ['/', 'a', '/', 'b'] then some .file
  else none

/-- Oracle of the traversal example: the paths with components a then b and
a then c are files, everything else fails. -/
def classifyABC : Key → Option LeafKind := fun q =>
  if q = ['/', 'a', '/', 'b'] then some .file
  else if q = ['/', 'a', '/', 'c'] then some .file
  else none

/-- The one-entry stem storing a directory leaf at component a. -/
def stemA : Stem := .cons ['a'] (.leaf .directory) .nil

/-- The set holding one directory leaf at the component spelled etc. -/
def nodeEtc : Node := .stem (.cons ['e', 't', 'c'] (.leaf .directory) .nil)

/-! Lemmas about rendering and parsing of filenames. -/

theorem foldl_render (cs : List Key) :
    ∀ acc : List Char, List.foldl (fun acc c => acc ++ '/' :: c) acc cs = acc ++ renderComps cs := by
  induction cs with
  | nil => intro acc; simp [renderComps]
  | cons c cs ih => intro acc; simp [renderComps, ih, List.append_assoc]

theorem filenameToString_eq_renderComps (cs : List Key) :
    filenameToString cs = renderComps cs := by
  simpa using foldl_render cs []

theorem fromStr_cons (t : List Char) :
    filenameFromStr ('/' :: t) = some ((splitSlash t).filter (fun s => s.length > 0)) := by
  simp [filenameFromStr]

theorem splitSlash_sep (c : Key) (r : List Char) (h : '/' ∉ c) :
    splitSlash (c ++ '/' :: r) = c :: splitSlash r := by
  induction c with
  | nil => simp [splitSlash]
  | cons a c ih =>
    have ha : a ≠ '/' := fun hEq => h (hEq ▸ List.mem_cons_self a c)
    have hc : '/' ∉ c := fun hm => h (List.mem_cons_of_mem a hm)
    simp only [List.cons_append, splitSlash, if_neg ha]
    rw [show c.append ('/' :: r) = c ++ '/' :: r from rfl, ih hc]
theorem splitSlash_no_sep (c : Key) (h : '/' ∉ c) : splitSlash c = [c] := by
  induction c with
  | nil => simp [splitSlash]
  | cons a c ih =>
    have ha : a ≠ '/' := fun hEq => h (hEq ▸ List.mem_cons_self a c)
    have hc : '/' ∉ c := fun hm => h (List.mem_cons_of_mem a hm)
    simp only [splitSlash, if_neg ha, ih hc]

theorem parse_render_aux (cs : List Key) :
    ∀ c : Key, c ≠ [] → '/' ∉ c → (∀ x ∈ cs, x ≠ [] ∧ '/' ∉ x) →
    (splitSlash (c ++ renderComps cs)).filter (fun s => s.length > 0) = c :: cs := by
  induction cs with
  | nil =>
    intro c hne hns _
    rw [renderComps, List.append_nil, splitSlash_no_sep c hns]
    simp [List.filter, List.length_pos, hne]
  | cons c' cs ih =>
    intro c hne hns hall
    rw [renderComps, List.cons_append, splitSlash_sep c _ hns]
    have h1 := hall c' (List.mem_cons_self c' cs)
    have h2 : ∀ x ∈ cs, x ≠ [] ∧ '/' ∉ x := fun x hx => hall x (List.mem_cons_of_mem c' hx)
    rw [List.filter_cons_of_pos (by simpa [List.length_pos] using hne), ih c' h1.1 h1.2 h2]

/-- C10.  Rendering the root filename, whose component list is empty,
yields the empty string rather than the lone separator, and the empty
string is produced exactly for the root. -/
theorem c10_render_root_empty :
    filenameToString [] = [] ∧ ∀ cs : List Key, filenameToString cs = [] ↔ cs = [] := by
  refine ⟨rfl, fun cs => ⟨fun h => ?_, fun h => h ▸ rfl⟩⟩
  cases cs with
  | nil => rfl
  | cons c cs => rw [filenameToString_eq_renderComps, renderComps] at h; exact absurd h (by simp)

/-- C7, counterexample.  The root path string, a lone separator, does not
round-trip: parsing it yields the empty component list, which renders to
the empty string, not to the separator. -/
theorem c7_counterexample :
    Option.map filenameToString (filenameFromStr ['/']) ≠ some ['/'] := by decide

/-- C7, amended.  Rendering after parsing round-trips on every rendered
absolute path with at least one component, each component nonempty and free
of separators; the root path string, a lone separator, is the exception,
parsing to the root and rendering to the empty string. -/
theorem c7_round_trip (comps : List Key) (hne : comps ≠ [])
    (hc : ∀ x ∈ comps, x ≠ [] ∧ '/' ∉ x) :
    filenameFromStr (filenameToString comps) = some comps ∧
    Option.map filenameToString (filenameFromStr (filenameToString comps)) =
      some (filenameToString comps) := by
  cases comps with
  | nil => exact absurd rfl hne
  | cons c cs =>
    have h1 := hc c (List.mem_cons_self c cs)
    have h2 : ∀ x ∈ cs, x ≠ [] ∧ '/' ∉ x := fun x hx => hc x (List.mem_cons_of_mem c hx)
    have hparse : filenameFromStr (filenameToString (c :: cs)) = some (c :: cs) := by
      rw [filenameToString_eq_renderComps, renderComps, List.cons_append, fromStr_cons,
        parse_render_aux cs c h1.1 h1.2 h2]
    exact ⟨hparse, by rw [hparse, Option.map_some']⟩

/-- C7, witness for the amended round trip at the path rendered from the
components a and b. -/
theorem c7_round_trip_witness :
    ([['a'], ['b']] : List Key) ≠ [] ∧ (∀ x ∈ ([['a'], ['b']] : List Key), x ≠ [] ∧ '/' ∉ x) ∧
    filenameFromStr (filenameToString [['a'], ['b']]) = some [['a'], ['b']] :=
  ⟨by decide, by decide, (c7_round_trip [['a'], ['b']] (by decide) (by decide)).1⟩

/-! The partially written difference_strict. -/

/-- C1.  In the source as written, a branch minuend with a directory-leaf
subtrahend at the root returns Err rather than succeeding with the branch
removed: the written match arm for a Stem whole and a Leaf subtrahend
returns Err whatever the leaf kind, contradicting the claim; the claim
matches the specification's stated intent, so this is recorded against the
code. -/
theorem c1_draft_branch_minus_directory_errs :
    differenceStrictDraft ⟨.stem (.cons ['a'] (.leaf .file) .nil)⟩ ⟨.leaf .directory⟩ = .err :=
  rfl

/-- C2.  In the source as written, two leaves at the root are subtracted to
the empty tree whatever their kinds: subtracting a file leaf from a
directory leaf succeeds with an empty result instead of failing with a
path-conflict error, contradicting the claim; the claim matches the
specification's stated intent, so this is recorded against the code. -/
theorem c2_draft_leaf_mismatch_ok :
    differenceStrictDraft ⟨.leaf .directory⟩ ⟨.leaf .file⟩ = .ok ⟨.stem .nil⟩ :=
  rfl

/-! Lemmas about sorted stems and the construction invariant. -/

theorem stemRecAux {motive : Stem → Prop} (hnil : motive .nil)
    (hcons : ∀ k n rest, motive rest → motive (.cons k n rest)) : ∀ s, motive s
  | .nil => hnil
  | .cons k n rest => hcons k n rest (stemRecAux hnil hcons rest)

theorem nodeWF_leaf (k : LeafKind) : nodeWF (.leaf k) := by rw [nodeWF]; trivial

theorem nodeWF_stem {s : Stem} (h : stemWF s) : nodeWF (.stem s) := by rw [nodeWF]; exact h

theorem stemWF_nil : stemWF .nil := by rw [stemWF]; trivial

theorem stemKindsOk_nil (classify : Key → Option LeafKind) (dir : List Char) :
    stemKindsOk classify dir .nil := by rw [stemKindsOk]; trivial

theorem nodeKindsOk_leaf {classify : Key → Option LeafKind} {dir : List Char} {k : LeafKind}
    (h : classify dir = some k) : nodeKindsOk classify dir (.leaf k) := by
  rw [nodeKindsOk]; exact h

theorem nodeKindsOk_stem {classify : Key → Option LeafKind} {dir : List Char} {s : Stem}
    (h : stemKindsOk classify dir s) : nodeKindsOk classify dir (.stem s) := by
  rw [nodeKindsOk]; exact h

theorem stemKeyLt_lt {k key : Key} {n : Node} {s : Stem}
    (hlt : stemKeyLt k s) (hl : lookupStem s key = some n) : k < key := by
  induction s using stemRecAux with
  | hnil => exact absurd hl (by simp [lookupStem])
  | hcons k' n' rest ih =>
    rw [lookupStem] at hl
    rw [stemKeyLt] at hlt
    by_cases hket : key = k'
    · exact hket ▸ hlt.1
    · exact ih hlt.2 (by simpa [hket] using hl)

theorem insertStem_lookup_eq {key : Key} {n : Node} {s : Stem}
    (hWF : stemWF s) (hl : lookupStem s key = some n) : insertStem s key n = s := by
  induction s using stemRecAux with
  | hnil => exact absurd hl (by simp [lookupStem])
  | hcons k m rest ih =>
    rw [stemWF] at hWF
    rw [lookupStem] at hl
    by_cases hket : key = k
    · subst hket
      rw [if_pos rfl] at hl
      rw [insertStem, if_pos rfl, Option.some.inj hl]
    · rw [if_neg hket] at hl
      have hkk : k < key := stemKeyLt_lt hWF.2.1 hl
      rw [insertStem, if_neg hket, if_neg (not_lt_of_gt hkk), ih hWF.2.2 hl]

theorem stemKeyLt_trans {key k : Key} (hk : key < k) {s : Stem}
    (h : stemKeyLt k s) : stemKeyLt key s := by
  induction s using stemRecAux with
  | hnil => rw [stemKeyLt]; trivial
  | hcons k' n' rest ih =>
    rw [stemKeyLt] at h ⊢
    exact ⟨lt_trans hk h.1, ih h.2⟩

theorem insertStem_keyLt {k key : Key} {n : Node} (hk : k < key) {s : Stem}
    (h : stemKeyLt k s) : stemKeyLt k (insertStem s key n) := by
  induction s using stemRecAux with
  | hnil => rw [insertStem, stemKeyLt, stemKeyLt]; exact ⟨hk, trivial⟩
  | hcons k' n' rest ih =>
    rw [stemKeyLt] at h
    rw [insertStem]
    by_cases hket : key = k'
    · rw [if_pos hket, stemKeyLt]; exact ⟨hket ▸ hk, h.2⟩
    · rw [if_neg hket]
      by_cases hlt : key < k'
      · rw [if_pos hlt, stemKeyLt, stemKeyLt]; exact ⟨hk, h.1, h.2⟩
      · rw [if_neg hlt, stemKeyLt]; exact ⟨h.1, ih h.2⟩

theorem insertStem_WF {key : Key} {n : Node} (hn : nodeWF n) {s : Stem}
    (hWF : stemWF s) : stemWF (insertStem s key n) := by
  induction s using stemRecAux with
  | hnil => rw [insertStem, stemWF, stemKeyLt]; exact ⟨hn, trivial, stemWF_nil⟩
  | hcons k m rest ih =>
    rw [stemWF] at hWF
    rw [insertStem]
    by_cases hket : key = k
    · rw [if_pos hket, stemWF]; exact ⟨hn, hket ▸ hWF.2.1, hWF.2.2⟩
    · rw [if_neg hket]
      by_cases hlt : key < k
      · rw [if_pos hlt, stemWF, stemKeyLt]
        refine ⟨hn, ⟨hlt, stemKeyLt_trans hlt hWF.2.1⟩, ?_⟩
        rw [stemWF]; exact ⟨hWF.1, hWF.2.1, hWF.2.2⟩
      · have hkk : k < key := by
          rcases lt_trichotomy key k with h | h | h
          · exact absurd h hlt
          · exact absurd h hket
          · exact h
        rw [if_neg hlt, stemWF]
        exact ⟨hWF.1, insertStem_keyLt hkk hWF.2.1, ih hWF.2.2⟩

theorem lookupStem_WF {key : Key} {n : Node} {s : Stem}
    (hWF : stemWF s) (hl : lookupStem s key = some n) : nodeWF n := by
  induction s using stemRecAux with
  | hnil => exact absurd hl (by simp [lookupStem])
  | hcons k m rest ih =>
    rw [stemWF] at hWF
    rw [lookupStem] at hl
    by_cases hket : key = k
    · rw [if_pos hket] at hl
      exact (Option.some.inj hl) ▸ hWF.1
    · exact ih hWF.2.2 (by simpa [hket] using hl)

theorem lookupStem_kindsOk {classify : Key → Option LeafKind} {dir : List Char}
    {key : Key} {n : Node} {s : Stem}
    (hK : stemKindsOk classify dir s) (hl : lookupStem s key = some n) :
    nodeKindsOk classify (dir ++ '/' :: key) n := by
  induction s using stemRecAux with
  | hnil => exact absurd hl (by simp [lookupStem])
  | hcons k m rest ih =>
    rw [stemKindsOk] at hK
    rw [lookupStem] at hl
    by_cases hket : key = k
    · subst hket
      rw [if_pos rfl] at hl
      exact (Option.some.inj hl) ▸ hK.1
    · exact ih hK.2 (by simpa [hket] using hl)

theorem insertStem_kindsOk {classify : Key → Option LeafKind} {dir : List Char}
    {key : Key} {n : Node} (hn : nodeKindsOk classify (dir ++ '/' :: key) n) {s : Stem}
    (hK : stemKindsOk classify dir s) : stemKindsOk classify dir (insertStem s key n) := by
  induction s using stemRecAux with
  | hnil => rw [insertStem, stemKindsOk, stemKindsOk]; exact ⟨hn, trivial⟩
  | hcons k m rest ih =>
    rw [stemKindsOk] at hK
    rw [insertStem]
    by_cases hket : key = k
    · rw [if_pos hket, stemKindsOk]
      exact ⟨hket ▸ hn, hK.2⟩
    · rw [if_neg hket]
      by_cases hlt : key < k
      · rw [if_pos hlt, stemKindsOk, stemKindsOk]; exact ⟨hn, hK.1, hK.2⟩
      · rw [if_neg hlt, stemKindsOk]; exact ⟨hK.1, ih hK.2⟩

theorem insertComps_eq_spec {classify : Key → Option LeafKind} : ∀ (cs : List Key)
    {dir : List Char} {s : Stem} (c : Key), stemWF s → stemKindsOk classify dir s →
    (insertComps classify dir s c cs).1 = insertCompsSpec classify dir s c cs := by
  intro cs
  induction cs with
  | nil =>
    intro dir s c hWF hK
    cases hcl : classify (dir ++ '/' :: c) with
    | none => simp only [insertComps, insertCompsSpec, hcl]
    | some k =>
      cases hl : lookupStem s c with
      | none => simp only [insertComps, insertCompsSpec, hcl, hl]
      | some n =>
        cases n with
        | stem s2 => simp only [insertComps, insertCompsSpec, hcl, hl]
        | leaf lk =>
          have hkind := lookupStem_kindsOk hK hl
          rw [nodeKindsOk, hcl] at hkind
          have hkk : k = lk := Option.some.inj hkind
          subst hkk
          cases k with
          | directory =>
            simp only [insertComps, insertCompsSpec, hcl, hl]
            rw [insertStem_lookup_eq hWF hl]
          | file =>
            simp only [insertComps, insertCompsSpec, hcl, hl, if_true]
            rw [insertStem_lookup_eq hWF hl]
  | cons c' rest ih =>
    intro dir s c hWF hK
    cases hl : lookupStem s c with
    | none =>
      rcases hpair : insertComps classify (dir ++ '/' :: c) .nil c' rest with ⟨r, qs⟩
      have hinner := @ih (dir ++ '/' :: c) .nil c' stemWF_nil
        (stemKindsOk_nil classify _)
      rw [hpair] at hinner
      dsimp only at hinner
      cases r with
      | none => simp only [insertComps, insertCompsSpec, hl, hpair, ← hinner]
      | some s2 => simp only [insertComps, insertCompsSpec, hl, hpair, ← hinner]
    | some n =>
      cases n with
      | stem s2 =>
        have hWF2 : stemWF s2 := lookupStem_WF hWF hl
        have hK2 : stemKindsOk classify (dir ++ '/' :: c) s2 := lookupStem_kindsOk hK hl
        rcases hpair : insertComps classify (dir ++ '/' :: c) s2 c' rest with ⟨r, qs⟩
        have hinner := @ih (dir ++ '/' :: c) s2 c' hWF2 hK2
        rw [hpair] at hinner
        dsimp only at hinner
        cases r with
        | none => simp only [insertComps, insertCompsSpec, hl, hpair, ← hinner]
        | some s3 => simp only [insertComps, insertCompsSpec, hl, hpair, ← hinner]
      | leaf lk =>
        cases lk with
        | directory => simp only [insertComps, insertCompsSpec, hl]
        | file => simp only [insertComps, insertCompsSpec, hl]

theorem insertComps_preserve {classify : Key → Option LeafKind} : ∀ (cs : List Key)
    {dir : List Char} {s : Stem} (c : Key) {s2 : Stem}, stemWF s → stemKindsOk classify dir s →
    (insertComps classify dir s c cs).1 = some s2 →
    stemWF s2 ∧ stemKindsOk classify dir s2 := by
  intro cs
  induction cs with
  | nil =>
    intro dir s c s2 hWF hK hres
    cases hcl : classify (dir ++ '/' :: c) with
    | none => rw [insertComps, hcl] at hres; exact absurd hres (by simp)
    | some k =>
      rw [insertComps, hcl] at hres
      dsimp only at hres
      have hs2 : insertStem s c (.leaf k) = s2 := Option.some.inj hres
      subst hs2
      exact ⟨insertStem_WF (nodeWF_leaf k) hWF,
        insertStem_kindsOk (nodeKindsOk_leaf hcl) hK⟩
  | cons c' rest ih =>
    intro dir s c s2 hWF hK hres
    cases hl : lookupStem s c with
    | none =>
      rcases hpair : insertComps classify (dir ++ '/' :: c) .nil c' rest with ⟨r, qs⟩
      rw [insertComps, hl, hpair] at hres
      cases r with
      | none => exact absurd hres (by simp)
      | some s3 =>
        dsimp only at hres
        have h3 := @ih (dir ++ '/' :: c) .nil c' _ stemWF_nil
          (stemKindsOk_nil classify _) (by rw [hpair])
        have hs2 : insertStem s c (.stem s3) = s2 := Option.some.inj hres
        subst hs2
        exact ⟨insertStem_WF (nodeWF_stem h3.1) hWF,
          insertStem_kindsOk (nodeKindsOk_stem h3.2) hK⟩
    | some n =>
      cases n with
      | stem s4 =>
        have hWF4 : stemWF s4 := lookupStem_WF hWF hl
        have hK4 : stemKindsOk classify (dir ++ '/' :: c) s4 := lookupStem_kindsOk hK hl
        rcases hpair : insertComps classify (dir ++ '/' :: c) s4 c' rest with ⟨r, qs⟩
        rw [insertComps, hl] at hres
        dsimp only at hres
        rw [hpair] at hres
        cases r with
        | none => exact absurd hres (by simp)
        | some s3 =>
          dsimp only at hres
          have h3 := @ih (dir ++ '/' :: c) s4 c' _ hWF4 hK4 (by rw [hpair])
          have hs2 : insertStem s c (.stem s3) = s2 := Option.some.inj hres
          subst hs2
          exact ⟨insertStem_WF (nodeWF_stem h3.1) hWF,
            insertStem_kindsOk (nodeKindsOk_stem h3.2) hK⟩
      | leaf lk =>
        cases lk with
        | directory =>
          rw [insertComps, hl] at hres
          have hs2 : s = s2 := Option.some.inj hres
          exact hs2 ▸ ⟨hWF, hK⟩
        | file =>
          rw [insertComps, hl] at hres
          exact absurd hres (by simp)

theorem fromFilenamesAux_eq_spec {classify : Key → Option LeafKind} : ∀ (inputs : List (List Key))
    {s : Stem}, stemWF s → stemKindsOk classify [] s →
    fromFilenamesAux classify s inputs = fromFilenamesSpecAux classify s inputs := by
  intro inputs
  induction inputs with
  | nil => intro s _ _; rfl
  | cons comps rest ih =>
    intro s hWF hK
    cases comps with
    | nil => simp only [fromFilenamesAux, fromFilenamesSpecAux]
    | cons c cs =>
      have heq := insertComps_eq_spec cs c hWF hK
      cases hres : insertCompsSpec classify [] s c cs with
      | none => simp only [fromFilenamesAux, fromFilenamesSpecAux, heq, hres]
      | some s2 =>
        have h2 := insertComps_preserve cs c hWF hK (by rw [heq, hres])
        simp only [fromFilenamesAux, fromFilenamesSpecAux, heq, hres]
        exact ih h2.1 h2.2

/-- C3.  During construction, the unconditional insert the code performs at
the last component behaves exactly as the specification's checked step: on
every input list and every classification oracle, the construction equals
the construction that at the last component treats an existing directory
leaf as a no-op, demands an existing file leaf to be met by a freshly
classified file kind with a path conflict otherwise, and only otherwise
inserts a leaf of the classified kind.  The conflict branch never fires
within a single construction run because every stored leaf carries the kind
the oracle assigns to its rendered path. -/
theorem c3_last_component_step (classify : Key → Option LeafKind)
    (inputs : List (List Key)) :
    fromFilenames classify inputs = fromFilenamesSpec classify inputs :=
  fromFilenamesAux_eq_spec inputs stemWF_nil (stemKindsOk_nil classify [])

/-- C4.  Directory absorption: inserting a path that extends, by at least
one further component, a position already holding a directory leaf leaves
the tree unchanged and issues no metadata query; concretely, building from
the directory path a and the path a b equals building from a alone, in
either input order. -/
theorem c4_directory_absorption :
    (∀ (classify : Key → Option LeafKind) (q' : List Key) (dir : List Char) (s : Stem)
        (c : Key) (cs : List Key), stemWF s →
        nodeAtStem s (c :: q') = some (.leaf .directory) →
        (∃ r, r ≠ [] ∧ cs = q' ++ r) →
        insertComps classify dir s c cs = (some s, [])) ∧
    fromFilenames classifyAB [[['a']], [['a'], ['b']]] = fromFilenames classifyAB [[['a']]] ∧
    fromFilenames classifyAB [[['a'], ['b']], [['a']]] = fromFilenames classifyAB [[['a']]] := by
  refine ⟨?_, rfl, rfl⟩
  intro classify q'
  induction q' with
  | nil =>
    intro dir s c cs hWF hat hex
    rcases hex with ⟨r, hr, hcs⟩
    rw [nodeAtStem] at hat
    cases cs with
    | nil =>
      have : r = [] := by simpa using hcs.symm
      exact absurd this hr
    | cons c2 cs2 => simp only [insertComps, hat]
  | cons c2 q'' ih =>
    intro dir s c cs hWF hat hex
    rcases hex with ⟨r, hr, hcs⟩
    rw [nodeAtStem] at hat
    cases hl : lookupStem s c with
    | none => rw [hl] at hat; exact absurd hat (by simp)
    | some n =>
      rw [hl] at hat
      cases n with
      | leaf k => exact absurd hat (by simp)
      | stem s2 =>
        have hWF2 : stemWF s2 := lookupStem_WF hWF hl
        subst hcs
        have hstep := ih (dir ++ '/' :: c) s2 c2 (q'' ++ r) hWF2 hat ⟨r, hr, rfl⟩
        simp only [List.cons_append, insertComps, hl, List.append_eq, hstep]
        rw [insertStem_lookup_eq hWF hl]

/-- C4, witness: in the stem holding a directory leaf at component a,
inserting the path with components a then b is a no-op issuing no metadata
query. -/
theorem c4_directory_absorption_witness :
    stemWF stemA ∧ nodeAtStem stemA [['a']] = some (.leaf .directory) ∧
    insertComps classifyAB [] stemA ['a'] [['b']] = (some stemA, []) := by
  have h1 : stemWF stemA := by simp [stemA, stemWF, nodeWF, stemKeyLt]
  have h2 : nodeAtStem stemA [['a']] = some (.leaf .directory) := rfl
  exact ⟨h1, h2, c4_directory_absorption.1 classifyAB [] [] stemA ['a'] [['b']] h1 h2
    ⟨[['b']], by simp, rfl⟩⟩

/-- C5.  Subtraction policy: a subtrahend entry whose key is absent from
the minuend's branch makes strict subtraction fail with NotPresentInWhole
naming the offending path, while relaxed subtraction succeeds returning the
minuend unchanged; concretely, subtracting the set of the path y from the
set of the path x fails strictly naming y and succeeds relaxed with the
minuend back. -/
theorem c5_subtraction_policy :
    (∀ (ws : Stem) (k : Key) (rn : Node), lookupStem ws k = none →
      subtractNode .strict [] (.stem ws) (.stem (.cons k rn .nil)) =
        .error (.notPresentInWhole [k]) ∧
      subtractNode .relaxed [] (.stem ws) (.stem (.cons k rn .nil)) =
        .ok (some (.stem ws))) ∧
    subtractNode .strict [] (.stem (.cons ['x'] (.leaf .file) .nil))
      (.stem (.cons ['y'] (.leaf .file) .nil)) = .error (.notPresentInWhole [['y']]) ∧
    subtractNode .relaxed [] (.stem (.cons ['x'] (.leaf .file) .nil))
      (.stem (.cons ['y'] (.leaf .file) .nil)) =
      .ok (some (.stem (.cons ['x'] (.leaf .file) .nil))) := by
  refine ⟨?_, rfl, rfl⟩
  intro ws k rn hl
  constructor
  · simp only [subtractNode, subtractStems, hl, List.nil_append, Except.map]
  · simp only [subtractNode, subtractStems, hl, Except.map]

/-- C5, witness: the key y is absent from the minuend storing only x, and
strict subtraction fails naming the path y. -/
theorem c5_subtraction_policy_witness :
    lookupStem (.cons ['x'] (.leaf .file) .nil) ['y'] = none ∧
    subtractNode .strict [] (.stem (.cons ['x'] (.leaf .file) .nil))
      (.stem (.cons ['y'] (.leaf .file) .nil)) = .error (.notPresentInWhole [['y']]) :=
  ⟨rfl, (c5_subtraction_policy.1 (.cons ['x'] (.leaf .file) .nil) ['y'] (.leaf .file) rfl).1⟩

/-! Lemmas about the union. -/

theorem node_size_pos (a : Node) : 0 < sizeOf a := by
  cases a <;> simp only [Node.stem.sizeOf_spec, Node.leaf.sizeOf_spec] <;> omega

theorem stem_size_pos (s : Stem) : 0 < sizeOf s := by
  cases s <;> simp only [Stem.nil.sizeOf_spec, Stem.cons.sizeOf_spec] <;> omega

theorem mergeNode_dir_left (x : Node) :
    mergeNode (.leaf .directory) x = some (.leaf .directory) := by
  cases x <;> simp [mergeNode]

theorem mergeNode_dir_right (x : Node) :
    mergeNode x (.leaf .directory) = some (.leaf .directory) := by
  cases x with
  | leaf k => cases k <;> simp [mergeNode]
  | stem s => simp [mergeNode]

theorem mergeStems_nil_right (xs : Stem) : mergeStems xs .nil = some xs := by
  cases xs <;> simp [mergeStems]

theorem mergeStems_nil_left (ys : Stem) : mergeStems .nil ys = some ys := by
  simp [mergeStems]

theorem merge_comm_all : ∀ fuel : Nat,
    (∀ a b : Node, sizeOf a + sizeOf b ≤ fuel → mergeNode a b = mergeNode b a) ∧
    (∀ xs ys : Stem, sizeOf xs + sizeOf ys ≤ fuel → mergeStems xs ys = mergeStems ys xs) := by
  intro fuel
  induction fuel with
  | zero =>
    refine ⟨fun a b h => absurd h ?_, fun xs ys h => absurd h ?_⟩
    · have := node_size_pos a; omega
    · have := stem_size_pos xs; omega
  | succ fuel ih =>
    constructor
    · intro a b h
      cases a with
      | leaf ka =>
        cases ka
        · cases b with
          | leaf kb => cases kb <;> simp [mergeNode]
          | stem ys => simp [mergeNode]
        · rw [mergeNode_dir_left, mergeNode_dir_right]
      | stem xs =>
        cases b with
        | leaf kb =>
          cases kb
          · simp [mergeNode]
          · rw [mergeNode_dir_left, mergeNode_dir_right]
        | stem ys =>
          have hle : sizeOf xs + sizeOf ys ≤ fuel := by
            simp only [Node.stem.sizeOf_spec] at h; omega
          simp only [mergeNode]
          rw [ih.2 xs ys hle]
    · intro xs ys h
      cases xs with
      | nil => rw [mergeStems_nil_left, mergeStems_nil_right]
      | cons k1 n1 xs' =>
        cases ys with
        | nil => rw [mergeStems_nil_left, mergeStems_nil_right]
        | cons k2 n2 ys' =>
          have hsz : sizeOf xs' + sizeOf ys' ≤ fuel ∧ sizeOf n1 + sizeOf n2 ≤ fuel ∧
              sizeOf xs' + sizeOf (Stem.cons k2 n2 ys') ≤ fuel ∧
              sizeOf (Stem.cons k1 n1 xs') + sizeOf ys' ≤ fuel := by
            simp only [Stem.cons.sizeOf_spec] at h ⊢
            have := node_size_pos n1; have := node_size_pos n2
            have := stem_size_pos xs'; have := stem_size_pos ys'
            omega
          by_cases hk : k1 = k2
          · subst hk
            have h1 := ih.1 n1 n2 hsz.2.1
            have h2 := ih.2 xs' ys' hsz.1
            simp only [mergeStems, eq_self_iff_true, if_true, h1, h2]
          · by_cases hlt : k1 < k2
            · simp only [mergeStems, if_neg hk, if_pos hlt, if_neg (Ne.symm hk),
                if_neg (lt_asymm hlt)]
              rw [ih.2 xs' (.cons k2 n2 ys') hsz.2.2.1]
            · have hgt : k2 < k1 := by
                rcases lt_trichotomy k1 k2 with h' | h' | h'
                · exact absurd h' hlt
                · exact absurd h' hk
                · exact h'
              simp only [mergeStems, if_neg hk, if_neg hlt, if_pos hgt,
                if_neg (Ne.symm hk), if_neg (lt_asymm hgt)]
              rw [ih.2 (.cons k1 n1 xs') ys' hsz.2.2.2]

theorem mergeNode_comm (a b : Node) : mergeNode a b = mergeNode b a :=
  (merge_comm_all (sizeOf a + sizeOf b)).1 a b le_rfl

theorem merge_idem_all : ∀ fuel : Nat,
    (∀ a : Node, sizeOf a ≤ fuel → mergeNode a a = some a) ∧
    (∀ s : Stem, sizeOf s ≤ fuel → mergeStems s s = some s) := by
  intro fuel
  induction fuel with
  | zero =>
    refine ⟨fun a h => absurd h ?_, fun s h => absurd h ?_⟩
    · have := node_size_pos a; omega
    · have := stem_size_pos s; omega
  | succ fuel ih =>
    constructor
    · intro a h
      cases a with
      | leaf k => cases k <;> simp [mergeNode]
      | stem cs =>
        have hle : sizeOf cs ≤ fuel := by
          simp only [Node.stem.sizeOf_spec] at h; omega
        simp only [mergeNode]
        rw [ih.2 cs hle]
        rfl
    · intro s h
      cases s with
      | nil => rw [mergeStems_nil_left]
      | cons k n rest =>
        have hsz : sizeOf n ≤ fuel ∧ sizeOf rest ≤ fuel := by
          simp only [Stem.cons.sizeOf_spec] at h
          have := node_size_pos n; have := stem_size_pos rest
          omega
        simp only [mergeStems, eq_self_iff_true, if_true]
        rw [ih.1 n hsz.1, ih.2 rest hsz.2]
        rfl

theorem mergeNode_idem (a : Node) : mergeNode a a = some a :=
  (merge_idem_all (sizeOf a)).1 a le_rfl

theorem mergeNode_file_file :
    mergeNode (.leaf .file) (.leaf .file) = some (.leaf .file) := by simp [mergeNode]

theorem mergeNode_file_stem (s : Stem) : mergeNode (.leaf .file) (.stem s) = none := by
  simp [mergeNode]

theorem mergeNode_stem_file (s : Stem) : mergeNode (.stem s) (.leaf .file) = none := by
  simp [mergeNode]

theorem mergeNode_stems_inv {as bs : Stem} {ab : Node}
    (hab : mergeNode (.stem as) (.stem bs) = some ab) :
    ∃ t, mergeStems as bs = some t ∧ ab = .stem t := by
  simp only [mergeNode] at hab
  cases hm : mergeStems as bs with
  | none => rw [hm] at hab; exact absurd hab (by simp)
  | some t => rw [hm, Option.map_some'] at hab; exact ⟨t, rfl, (Option.some.inj hab).symm⟩

theorem mergeStems_lt_inv {k1 k2 : Key} {n1 n2 : Node} {xs ys ab : Stem} (h12 : k1 < k2)
    (hab : mergeStems (.cons k1 n1 xs) (.cons k2 n2 ys) = some ab) :
    ∃ t, mergeStems xs (.cons k2 n2 ys) = some t ∧ ab = .cons k1 n1 t := by
  rw [mergeStems, if_neg (ne_of_lt h12), if_pos h12] at hab
  cases hm : mergeStems xs (.cons k2 n2 ys) with
  | none => rw [hm] at hab; exact absurd hab (by simp)
  | some t => rw [hm, Option.map_some'] at hab; exact ⟨t, rfl, (Option.some.inj hab).symm⟩

theorem mergeStems_gt_inv {k1 k2 : Key} {n1 n2 : Node} {xs ys ab : Stem} (h21 : k2 < k1)
    (hab : mergeStems (.cons k1 n1 xs) (.cons k2 n2 ys) = some ab) :
    ∃ t, mergeStems (.cons k1 n1 xs) ys = some t ∧ ab = .cons k2 n2 t := by
  rw [mergeStems, if_neg (ne_of_gt h21), if_neg (lt_asymm h21)] at hab
  cases hm : mergeStems (.cons k1 n1 xs) ys with
  | none => rw [hm] at hab; exact absurd hab (by simp)
  | some t => rw [hm, Option.map_some'] at hab; exact ⟨t, rfl, (Option.some.inj hab).symm⟩

theorem mergeStems_eq_inv {k : Key} {n1 n2 : Node} {xs ys ab : Stem}
    (hab : mergeStems (.cons k n1 xs) (.cons k n2 ys) = some ab) :
    ∃ m t, mergeNode n1 n2 = some m ∧ mergeStems xs ys = some t ∧ ab = .cons k m t := by
  rw [mergeStems, if_pos rfl] at hab
  cases hm : mergeNode n1 n2 with
  | none => rw [hm] at hab; exact absurd hab (by simp [Option.bind])
  | some m =>
    rw [hm] at hab
    simp only [Option.bind] at hab
    cases ht : mergeStems xs ys with
    | none => rw [ht] at hab; exact absurd hab (by simp)
    | some t =>
      rw [ht, Option.map_some'] at hab
      exact ⟨m, t, rfl, rfl, (Option.some.inj hab).symm⟩

theorem merge_assoc_all : ∀ fuel : Nat,
    (∀ a b c : Node, ∀ ab bc : Node, sizeOf a + sizeOf b + sizeOf c ≤ fuel →
      mergeNode a b = some ab → mergeNode b c = some bc →
      mergeNode ab c = mergeNode a bc) ∧
    (∀ xs ys zs : Stem, ∀ ab bc : Stem, sizeOf xs + sizeOf ys + sizeOf zs ≤ fuel →
      mergeStems xs ys = some ab → mergeStems ys zs = some bc →
      mergeStems ab zs = mergeStems xs bc) := by
  intro fuel
  induction fuel with
  | zero =>
    refine ⟨fun a b c ab bc h _ _ => absurd h ?_, fun xs ys zs ab bc h _ _ => absurd h ?_⟩
    · have := node_size_pos a; have := node_size_pos b; have := node_size_pos c; omega
    · have := stem_size_pos xs; have := stem_size_pos ys; have := stem_size_pos zs; omega
  | succ fuel ih =>
    constructor
    · intro a b c ab bc h hab hbc
      cases b with
      | leaf kb =>
        cases kb with
        | directory =>
          rw [mergeNode_dir_right] at hab
          rw [mergeNode_dir_left] at hbc
          obtain rfl := Option.some.inj hab
          obtain rfl := Option.some.inj hbc
          rw [mergeNode_dir_left, mergeNode_dir_right]
        | file =>
          cases a with
          | leaf ka =>
            cases ka with
            | directory =>
              rw [mergeNode_dir_left] at hab
              obtain rfl := Option.some.inj hab
              cases c with
              | leaf kc =>
                cases kc with
                | directory =>
                  rw [mergeNode_dir_right] at hbc
                  obtain rfl := Option.some.inj hbc
                  rfl
                | file =>
                  rw [mergeNode_file_file] at hbc
                  obtain rfl := Option.some.inj hbc
                  rfl
              | stem cs => exact absurd hbc (by rw [mergeNode_file_stem]; simp)
            | file =>
              rw [mergeNode_file_file] at hab
              obtain rfl := Option.some.inj hab
              cases c with
              | leaf kc =>
                cases kc with
                | directory =>
                  rw [mergeNode_dir_right] at hbc
                  obtain rfl := Option.some.inj hbc
                  rfl
                | file =>
                  rw [mergeNode_file_file] at hbc
                  obtain rfl := Option.some.inj hbc
                  rfl
              | stem cs => exact absurd hbc (by rw [mergeNode_file_stem]; simp)
          | stem as => exact absurd hab (by rw [mergeNode_stem_file]; simp)
      | stem bs =>
        cases a with
        | leaf ka =>
          cases ka with
          | directory =>
            rw [mergeNode_dir_left] at hab
            obtain rfl := Option.some.inj hab
            cases c with
            | leaf kc =>
              cases kc with
              | directory =>
                rw [mergeNode_dir_right] at hbc
                obtain rfl := Option.some.inj hbc
                rfl
              | file => exact absurd hbc (by rw [mergeNode_stem_file]; simp)
            | stem cs =>
              obtain ⟨BC, hm2, rfl⟩ := mergeNode_stems_inv hbc
              rw [mergeNode_dir_left, mergeNode_dir_left]
          | file => exact absurd hab (by rw [mergeNode_file_stem]; simp)
        | stem as =>
          obtain ⟨AB, hm1, rfl⟩ := mergeNode_stems_inv hab
          cases c with
          | leaf kc =>
            cases kc with
            | directory =>
              rw [mergeNode_dir_right] at hbc
              obtain rfl := Option.some.inj hbc
              rw [mergeNode_dir_right, mergeNode_dir_right]
            | file => exact absurd hbc (by rw [mergeNode_stem_file]; simp)
          | stem cs =>
            obtain ⟨BC, hm2, rfl⟩ := mergeNode_stems_inv hbc
            have hsz : sizeOf as + sizeOf bs + sizeOf cs ≤ fuel := by
              simp only [Node.stem.sizeOf_spec] at h; omega
            simp only [mergeNode]
            rw [ih.2 as bs cs AB BC hsz hm1 hm2]
    · intro xs ys zs ab bc h hab hbc
      cases xs with
      | nil =>
        rw [mergeStems_nil_left] at hab
        obtain rfl := Option.some.inj hab
        rw [mergeStems_nil_left, hbc]
      | cons k1 n1 xs' =>
        cases ys with
        | nil =>
          rw [mergeStems_nil_right] at hab
          rw [mergeStems_nil_left] at hbc
          obtain rfl := Option.some.inj hab
          obtain rfl := Option.some.inj hbc
          rfl
        | cons k2 n2 ys' =>
          cases zs with
          | nil =>
            rw [mergeStems_nil_right] at hbc
            obtain rfl := Option.some.inj hbc
            rw [mergeStems_nil_right, hab]
          | cons k3 n3 zs' =>
            have hp1 := node_size_pos n1; have hp2 := node_size_pos n2
            have hp3 := node_size_pos n3
            have hq1 := stem_size_pos xs'; have hq2 := stem_size_pos ys'
            have hq3 := stem_size_pos zs'
            simp only [Stem.cons.sizeOf_spec] at h
            rcases lt_trichotomy k1 k2 with h12 | h12 | h12
            · obtain ⟨asB, hm1, rfl⟩ := mergeStems_lt_inv h12 hab
              rcases lt_trichotomy k2 k3 with h23 | h23 | h23
              · obtain ⟨ysC, hm2, rfl⟩ := mergeStems_lt_inv h23 hbc
                have h13 : k1 < k3 := lt_trans h12 h23
                rw [mergeStems, if_neg (ne_of_lt h13), if_pos h13,
                  mergeStems, if_neg (ne_of_lt h12), if_pos h12,
                  ih.2 xs' (.cons k2 n2 ys') (.cons k3 n3 zs') asB _
                    (by simp only [Stem.cons.sizeOf_spec]; omega) hm1 hbc]
              · subst h23
                obtain ⟨n23, yz, hm2, hm2', rfl⟩ := mergeStems_eq_inv hbc
                rw [mergeStems, if_neg (ne_of_lt h12), if_pos h12,
                  mergeStems, if_neg (ne_of_lt h12), if_pos h12,
                  ih.2 xs' (.cons k2 n2 ys') (.cons k2 n3 zs') asB _
                    (by simp only [Stem.cons.sizeOf_spec]; omega) hm1 hbc]
              · obtain ⟨bzs, hm2, rfl⟩ := mergeStems_gt_inv h23 hbc
                rcases lt_trichotomy k1 k3 with h13 | h13 | h13
                · rw [mergeStems, if_neg (ne_of_lt h13), if_pos h13,
                    mergeStems, if_neg (ne_of_lt h13), if_pos h13,
                    ih.2 xs' (.cons k2 n2 ys') (.cons k3 n3 zs') asB _
                      (by simp only [Stem.cons.sizeOf_spec]; omega) hm1 hbc]
                · subst h13
                  rw [mergeStems, if_pos rfl, mergeStems, if_pos rfl,
                    ih.2 xs' (.cons k2 n2 ys') zs' asB bzs
                      (by simp only [Stem.cons.sizeOf_spec]; omega) hm1 hm2]
                · rw [mergeStems, if_neg (ne_of_gt h13), if_neg (lt_asymm h13),
                    mergeStems, if_neg (ne_of_gt h13), if_neg (lt_asymm h13),
                    ih.2 (.cons k1 n1 xs') (.cons k2 n2 ys') zs' _ bzs
                      (by simp only [Stem.cons.sizeOf_spec]; omega) hab hm2]
            · subst h12
              obtain ⟨n12, xy, hm1, hm1', rfl⟩ := mergeStems_eq_inv hab
              rcases lt_trichotomy k1 k3 with h23 | h23 | h23
              · obtain ⟨ysC, hm2, rfl⟩ := mergeStems_lt_inv h23 hbc
                rw [mergeStems, if_neg (ne_of_lt h23), if_pos h23,
                  mergeStems, if_pos rfl, hm1]
                simp only [Option.bind]
                rw [ih.2 xs' ys' (.cons k3 n3 zs') xy _
                  (by simp only [Stem.cons.sizeOf_spec]; omega) hm1' hm2]
              · subst h23
                obtain ⟨n23, yz, hm2, hm2', rfl⟩ := mergeStems_eq_inv hbc
                rw [mergeStems, if_pos rfl, mergeStems, if_pos rfl,
                  ih.1 n1 n2 n3 n12 n23 (by omega) hm1 hm2,
                  ih.2 xs' ys' zs' xy yz (by omega) hm1' hm2']
              · obtain ⟨bzs, hm2, rfl⟩ := mergeStems_gt_inv h23 hbc
                rw [mergeStems, if_neg (ne_of_gt h23), if_neg (lt_asymm h23),
                  mergeStems, if_neg (ne_of_gt h23), if_neg (lt_asymm h23),
                  ih.2 (.cons k1 n1 xs') (.cons k1 n2 ys') zs' _ bzs
                    (by simp only [Stem.cons.sizeOf_spec]; omega) hab hm2]
            · obtain ⟨ays, hm1, rfl⟩ := mergeStems_gt_inv h12 hab
              rcases lt_trichotomy k2 k3 with h23 | h23 | h23
              · obtain ⟨ysC, hm2, rfl⟩ := mergeStems_lt_inv h23 hbc
                rw [mergeStems, if_neg (ne_of_lt h23), if_pos h23,
                  mergeStems, if_neg (ne_of_gt h12), if_neg (lt_asymm h12),
                  ih.2 (.cons k1 n1 xs') ys' (.cons k3 n3 zs') ays _
                    (by simp only [Stem.cons.sizeOf_spec]; omega) hm1 hm2]
              · subst h23
                obtain ⟨n23, yz, hm2, hm2', rfl⟩ := mergeStems_eq_inv hbc
                rw [mergeStems, if_pos rfl, hm2]
                simp only [Option.bind]
                rw [mergeStems, if_neg (ne_of_gt h12), if_neg (lt_asymm h12),
                  ih.2 (.cons k1 n1 xs') ys' zs' ays yz
                    (by simp only [Stem.cons.sizeOf_spec]; omega) hm1 hm2']
              · obtain ⟨bzs, hm2, rfl⟩ := mergeStems_gt_inv h23 hbc
                have h13 : k3 < k1 := lt_trans h23 h12
                rw [mergeStems, if_neg (ne_of_gt h23), if_neg (lt_asymm h23),
                  mergeStems, if_neg (ne_of_gt h13), if_neg (lt_asymm h13),
                  ih.2 (.cons k1 n1 xs') (.cons k2 n2 ys') zs' _ bzs
                    (by simp only [Stem.cons.sizeOf_spec]; omega) hab hm2]

/-- C6, counterexample.  Union is not associative once conflicts are
possible: with A a file leaf at the root, B an empty branch and C a
directory leaf at the root, folding A with B first fails with a path
conflict, while folding B with C first absorbs everything into the
directory and succeeds. -/
theorem c6_counterexample :
    (mergeNode (.leaf .file) (.stem .nil)).bind
      (fun ab => mergeNode ab (.leaf .directory)) ≠
    (mergeNode (.stem .nil) (.leaf .directory)).bind
      (fun bc => mergeNode (.leaf .file) bc) := by
  simp [mergeNode]

/-- C6, amended.  Union of path sets is commutative and idempotent, and it
is associative whenever both associations succeed: if merging a with b and
b with c both succeed, then folding either way yields the same result,
failures included. -/
theorem c6_union_algebra :
    (∀ a b : Node, mergeNode a b = mergeNode b a) ∧
    (∀ a : Node, mergeNode a a = some a) ∧
    (∀ a b c ab bc : Node, mergeNode a b = some ab → mergeNode b c = some bc →
      mergeNode ab c = mergeNode a bc) :=
  ⟨mergeNode_comm, mergeNode_idem, fun a b c ab bc hab hbc =>
    (merge_assoc_all (sizeOf a + sizeOf b + sizeOf c)).1 a b c ab bc le_rfl hab hbc⟩

/-- C6, witness for the amended associativity at three file leaves. -/
theorem c6_union_algebra_witness :
    mergeNode (.leaf .file) (.leaf .file) = some (.leaf .file) ∧
    mergeNode (.leaf .file) (.leaf .file) = mergeNode (.leaf .file) (.leaf .file) :=
  ⟨mergeNode_file_file,
    c6_union_algebra.2.2 (.leaf .file) (.leaf .file) (.leaf .file) (.leaf .file) (.leaf .file)
      mergeNode_file_file mergeNode_file_file⟩

/-! Lemmas about iteration. -/

theorem iterate_count_all : ∀ fuel : Nat,
    (∀ n : Node, sizeOf n ≤ fuel → (iterateNode n).length = countTerminalsNode n) ∧
    (∀ s : Stem, sizeOf s ≤ fuel → (iterateStem s).length = countTerminalsStem s) := by
  intro fuel
  induction fuel with
  | zero =>
    refine ⟨fun n h => absurd h ?_, fun s h => absurd h ?_⟩
    · have := node_size_pos n; omega
    · have := stem_size_pos s; omega
  | succ fuel ih =>
    constructor
    · intro n h
      cases n with
      | leaf k => rfl
      | stem cs =>
        have hle : sizeOf cs ≤ fuel := by
          simp only [Node.stem.sizeOf_spec] at h; omega
        rw [iterateNode, countTerminalsNode, ih.2 cs hle]
    · intro s h
      cases s with
      | nil => rfl
      | cons k n rest =>
        have hsz : sizeOf n ≤ fuel ∧ sizeOf rest ≤ fuel := by
          simp only [Stem.cons.sizeOf_spec] at h
          have := node_size_pos n; have := stem_size_pos rest
          omega
        rw [iterateStem, countTerminalsStem, List.length_append, List.length_map,
          ih.1 n hsz.1, ih.2 rest hsz.2]

theorem iterateStem_head_lt {k : Key} : ∀ {s : Stem}, stemKeyLt k s →
    ∀ {q : List Key}, q ∈ iterateStem s → ∃ k' q', q = k' :: q' ∧ k < k' := by
  intro s
  induction s using stemRecAux with
  | hnil => intro _ q hq; rw [iterateStem] at hq; exact absurd hq (by simp)
  | hcons k2 n rest ih =>
    intro hlt q hq
    rw [stemKeyLt] at hlt
    rw [iterateStem] at hq
    rcases List.mem_append.mp hq with hq | hq
    · rcases List.mem_map.mp hq with ⟨p, _, rfl⟩
      exact ⟨k2, p, rfl, hlt.1⟩
    · exact ih hlt.2 hq

theorem iterate_sorted_all : ∀ fuel : Nat,
    (∀ n : Node, sizeOf n ≤ fuel → nodeWF n → List.Pairwise pathLt (iterateNode n)) ∧
    (∀ s : Stem, sizeOf s ≤ fuel → stemWF s → List.Pairwise pathLt (iterateStem s)) := by
  intro fuel
  induction fuel with
  | zero =>
    refine ⟨fun n h => absurd h ?_, fun s h => absurd h ?_⟩
    · have := node_size_pos n; omega
    · have := stem_size_pos s; omega
  | succ fuel ih =>
    constructor
    · intro n h hWF
      cases n with
      | leaf k => rw [iterateNode]; exact List.pairwise_singleton _ _
      | stem cs =>
        have hle : sizeOf cs ≤ fuel := by
          simp only [Node.stem.sizeOf_spec] at h; omega
        rw [nodeWF] at hWF
        rw [iterateNode]
        exact ih.2 cs hle hWF
    · intro s h hWF
      cases s with
      | nil => rw [iterateStem]; exact List.Pairwise.nil
      | cons k n rest =>
        have hsz : sizeOf n ≤ fuel ∧ sizeOf rest ≤ fuel := by
          simp only [Stem.cons.sizeOf_spec] at h
          have := node_size_pos n; have := stem_size_pos rest
          omega
        rw [stemWF] at hWF
        rw [iterateStem]
        rw [List.pairwise_append]
        refine ⟨?_, ih.2 rest hsz.2 hWF.2.2, ?_⟩
        · rw [List.pairwise_map]
          exact (ih.1 n hsz.1 hWF.1).imp fun hpq => List.Lex.cons hpq
        · intro p hp q hq
          rcases List.mem_map.mp hp with ⟨p', _, rfl⟩
          rcases iterateStem_head_lt hWF.2.1 hq with ⟨k', q', rfl, hk⟩
          exact List.Lex.rel hk

/-- C8.  Iteration of a path set is deterministic and canonical: it emits
exactly one component path per stored leaf, the emitted sequence is
strictly increasing in the lexicographic path order on every well-formed
tree, and building from the two file paths a b and a c in either input
order yields the same tree, whose traversal is exactly the sequence a b
then a c. -/
theorem c8_iteration :
    (∀ n : Node, (iterateNode n).length = countTerminalsNode n) ∧
    (∀ n : Node, nodeWF n → List.Pairwise pathLt (iterateNode n)) ∧
    fromFilenames classifyABC [[['a'], ['b']], [['a'], ['c']]] =
      some ⟨.stem (.cons ['a'] (.stem (.cons ['b'] (.leaf .file)
        (.cons ['c'] (.leaf .file) .nil))) .nil)⟩ ∧
    fromFilenames classifyABC [[['a'], ['c']], [['a'], ['b']]] =
      some ⟨.stem (.cons ['a'] (.stem (.cons ['b'] (.leaf .file)
        (.cons ['c'] (.leaf .file) .nil))) .nil)⟩ ∧
    iterateNode (.stem (.cons ['a'] (.stem (.cons ['b'] (.leaf .file)
      (.cons ['c'] (.leaf .file) .nil))) .nil)) = [[['a'], ['b']], [['a'], ['c']]] :=
  ⟨fun n => (iterate_count_all (sizeOf n)).1 n le_rfl,
    fun n hWF => (iterate_sorted_all (sizeOf n)).1 n le_rfl hWF,
    rfl, rfl, rfl⟩

/-- C8, witness: the tree built from the two example paths is well formed
and its traversal is strictly increasing. -/
theorem c8_iteration_witness :
    nodeWF (.stem (.cons ['a'] (.stem (.cons ['b'] (.leaf .file)
      (.cons ['c'] (.leaf .file) .nil))) .nil)) ∧
    List.Pairwise pathLt (iterateNode (.stem (.cons ['a'] (.stem (.cons ['b'] (.leaf .file)
      (.cons ['c'] (.leaf .file) .nil))) .nil))) := by
  have hWF : nodeWF (.stem (.cons ['a'] (.stem (.cons ['b'] (.leaf .file)
      (.cons ['c'] (.leaf .file) .nil))) .nil)) := by
    simp only [nodeWF, stemWF, stemKeyLt]
    refine ⟨⟨trivial, ⟨by decide, trivial⟩, trivial, trivial, trivial⟩, trivial, trivial⟩
  exact ⟨hWF, c8_iteration.2.1 _ hWF⟩

/-! Lemmas about expression evaluation. -/

theorem evaluateFrom_append (opts : EvaluateOptions) (l₁ l₂ : List (Sign × Node)) :
    ∀ acc : Node, evaluateFrom opts acc (l₁ ++ l₂) =
      match evaluateFrom opts acc l₁ with
      | .error e => .error e
      | .ok acc' => evaluateFrom opts acc' l₂ := by
  induction l₁ with
  | nil => intro acc; rfl
  | cons t rest ih =>
    intro acc
    rw [List.cons_append, evaluateFrom, evaluateFrom]
    cases evalStep opts acc t with
    | error e => rfl
    | ok acc' => exact ih acc'

theorem termsOverlap_iff (t acc : Node) :
    termsOverlap t acc = true ↔ ∃ p, p ∈ iterateNode t ∧ p ∈ iterateNode acc := by
  rw [termsOverlap]
  simp [List.any_eq_true]

/-- C9.  With duplicate additions disallowed, an Add term whose produced
set shares a terminal path with the running accumulator makes the whole
evaluation fail with DuplicateAddition and the merge is not applied; when
the produced set and the accumulator share no terminal path, the merge
proceeds and evaluation continues from the merged accumulator. -/
theorem c9_duplicate_addition (opts : EvaluateOptions) (l₁ l₂ : List (Sign × Node))
    (t acc : Node) (hflag : opts.allow_duplicate_addition = false)
    (hacc : evaluateFrom opts (.stem .nil) l₁ = .ok acc) :
    ((∃ p, p ∈ iterateNode t ∧ p ∈ iterateNode acc) →
      evaluateExpr opts (l₁ ++ (.positive, t) :: l₂) = .error .duplicateAddition) ∧
    (¬ (∃ p, p ∈ iterateNode t ∧ p ∈ iterateNode acc) →
      evaluateExpr opts (l₁ ++ (.positive, t) :: l₂) =
        match mergeNode acc t with
        | none => .error .mergeConflict
        | some m => evaluateFrom opts m l₂) := by
  constructor
  · intro hshare
    have hover : termsOverlap t acc = true := (termsOverlap_iff t acc).mpr hshare
    rw [evaluateExpr, evaluateFrom_append, hacc]
    dsimp only
    rw [evaluateFrom, evalStep, if_pos ⟨hflag, hover⟩]
  · intro hshare
    have hover : ¬ termsOverlap t acc = true := fun h => hshare ((termsOverlap_iff t acc).mp h)
    rw [evaluateExpr, evaluateFrom_append, hacc]
    dsimp only
    rw [evaluateFrom, evalStep, if_neg (fun hc => hover hc.2)]
    cases hm : mergeNode acc t with
    | none => rfl
    | some m => rfl

/-- C9, witness: adding the set holding the directory etc twice under
disallowed duplicate additions fails with DuplicateAddition on the second
Add term. -/
theorem c9_duplicate_addition_witness :
    (⟨false, false⟩ : EvaluateOptions).allow_duplicate_addition = false ∧
    evaluateFrom ⟨false, false⟩ (.stem .nil) [(.positive, nodeEtc)] = .ok nodeEtc ∧
    (∃ p, p ∈ iterateNode nodeEtc ∧ p ∈ iterateNode nodeEtc) ∧
    evaluateExpr ⟨false, false⟩ [(.positive, nodeEtc), (.positive, nodeEtc)] =
      .error .duplicateAddition := by
  have hacc : evaluateFrom ⟨false, false⟩ (.stem .nil) [(.positive, nodeEtc)] = .ok nodeEtc := by
    rw [evaluateFrom, evalStep]
    rw [if_neg ?hc]
    case hc =>
      intro hc
      exact absurd hc.2 (by decide)
    rw [show mergeNode (.stem .nil) nodeEtc = some nodeEtc by
      rw [nodeEtc]
      simp [mergeNode, mergeStems_nil_left]]
    rfl
  have hex : ∃ p, p ∈ iterateNode nodeEtc ∧ p ∈ iterateNode nodeEtc :=
    ⟨[['e', 't', 'c']], by decide, by decide⟩
  have := (c9_duplicate_addition ⟨false, false⟩ [(.positive, nodeEtc)] []
    nodeEtc nodeEtc rfl hacc).1 hex
  exact ⟨rfl, hacc, hex, by
    rw [show ([(.positive, nodeEtc), (.positive, nodeEtc)] :
      List (Sign × Node)) = [(.positive, nodeEtc)] ++ (.positive, nodeEtc) :: [] from rfl]
    exact this⟩

end UsbBoot
